import Mathlib

/- Shallow embedding of the pvQt quadsphere (src/quadsphere.h, src/quadsphere.cpp):
   a cube-derived tessellation of the unit sphere with seven parallel families of
   2-D texture coordinates, quad/line index arrays, and a seam-repair pass.

   Machine integers are modelled as ℕ / ℤ (the sizes involved are far below any
   overflow boundary); the C `int` division in the constructor is modelled with
   `Int.tdiv` (truncation toward zero).  Floating-point arithmetic is modelled
   over ℝ. -/

namespace Quadsphere

/-! ## Sizes and layout

    From `quadsphere::quadsphere(int divs)` (quadsphere.cpp lines 118-149) and the
    inline accessors of quadsphere.h. -/

/-- Modelled from the spec: `Nprojections` is declared in `pvQtPic.h`, which is not
among the repository sources.  The spec fixes the closed set of supported
projections at seven (rectilinear, fisheye, equirectangular, cylindrical,
equiangular, mercator, stereographic), and the constructor writes seven
texture-coordinate sets, so `Nprojections = 7`. -/
def Nprojections : ℕ := 7

/-- `divs = 2 * ((divs + 1) / 2); if (divs < 1) divs = 1;`
with C `int` division (truncation toward zero). -/
def effDivs (d : ℤ) : ℤ :=
  let r := 2 * Int.tdiv (d + 1) 2
  if r < 1 then 1 else r

/-- `dp1 = divs + 1` (total points per row). -/
def dp1 (n : ℕ) : ℕ := n + 1

/-- `qpf = divs * divs` (quads per face). -/
def qpf (n : ℕ) : ℕ := n * n

/-- `ppf = dp1 * dp1` (points per face). -/
def ppf (n : ℕ) : ℕ := dp1 n * dp1 n

/-- `d2 = divs / 2`. -/
def d2 (n : ℕ) : ℕ := n / 2

/-- `ntb = d2` (top/bottom seam points to copy). -/
def ntb (n : ℕ) : ℕ := d2 n

/-- `dups = dp1 + 2 * ntb + 4` (extra points for the seam fix). -/
def dups (n : ℕ) : ℕ := dp1 n + 2 * ntb n + 4

/-- `vertpnts = 6 * ppf + dups` (total vertices). -/
def vertpnts (n : ℕ) : ℕ := 6 * ppf n + dups n

/-- `linewrds = 24 * qpf`. -/
def linewrds (n : ℕ) : ℕ := 24 * qpf n

/-- `quadwrds = linewrds`. -/
def quadwrds (n : ℕ) : ℕ := linewrds n

/-- Number of quads: four indices per quad. -/
def numQuads (n : ℕ) : ℕ := quadwrds n / 4

/-- `nwords = (3 + 2 * Nprojections) * vertpnts + linewrds + quadwrds`. -/
def nwords (n : ℕ) : ℕ := (3 + 2 * Nprojections) * vertpnts n + linewrds n + quadwrds n

/-- `sizeof(float)` on every platform this code targets. -/
def sizeofFloat : ℕ := 4

/-- `vertexBytes() { return 3 * vertpnts * sizeof(float); }` -/
def vertexBytes (n : ℕ) : ℕ := 3 * vertpnts n * sizeofFloat

/-- `texCoordSize() { return 2 * vertpnts * sizeof(float); }` -/
def texCoordSize (n : ℕ) : ℕ := 2 * vertpnts n * sizeofFloat

/-- `dataBlockSize() { return 15 * vertpnts * sizeof(float); }` -/
def dataBlockSize (n : ℕ) : ℕ := 15 * vertpnts n * sizeofFloat

/-- `texCoords(proj)`: the catalog (`pictypes.picTypeIndex`, external to the
repository, modelled from the spec) resolves the identifier to an integer `i`;
the lookup returns null (`none`) unless `0 ≤ i < Nprojections`, else the pointer
`TCs + i * 2 * vertpnts`, represented here as a float offset from `verts`
(`TCs` itself sits at `verts + 3 * vertpnts`). -/
def texCoordsFloatOffset (n : ℕ) (i : ℤ) : Option ℕ :=
  if i < 0 ∨ (Nprojections : ℤ) ≤ i then none
  else some (3 * vertpnts n + i.toNat * (2 * vertpnts n))

/-- `texCoordOffset(proj)`: 0 when the lookup returned null, otherwise the byte
distance from `verts`. -/
def texCoordOffset (n : ℕ) (i : ℤ) : ℕ :=
  match texCoordsFloatOffset n i with
  | none => 0
  | some p => p * sizeofFloat

/-! ## Theorems on sizes (claims C1, C2, C3, C9) -/

/-- C1: for every effective (post-rounding) resolution n, the vertex count equals
6(n+1)² + (n+1) + 2⌊n/2⌋ + 4 and the quad count equals 6n²; in particular n = 2
yields 63 vertices and 24 quads. -/
theorem C1_counts :
    (∀ n : ℕ, vertpnts n = 6 * (n + 1) ^ 2 + (n + 1) + 2 * (n / 2) + 4 ∧
      quadwrds n = 4 * numQuads n ∧ numQuads n = 6 * n ^ 2) ∧
    vertpnts 2 = 63 ∧ numQuads 2 = 24 := by
  refine ⟨fun n => ⟨?_, ?_, ?_⟩, by decide, by decide⟩
  · simp only [vertpnts, ppf, dp1, dups, ntb, d2]
    ring_nf
  · simp only [quadwrds, numQuads, linewrds, qpf]
    omega
  · simp only [numQuads, quadwrds, linewrds, qpf]
    have : 24 * (n * n) = 6 * n ^ 2 * 4 := by ring
    rw [this, Nat.mul_div_cancel]
    norm_num

/-- C2 (code bug): `dataBlockSize()` returns `15 * vertpnts * sizeof(float)`,
which is NOT the byte span of the vertex array plus all seven texture-coordinate
sets: that span is `(3 + 2*7) * vertpnts * sizeof(float)`.  Evaluated at the
effective resolution 2: 3780 ≠ 4284 (the block falls one texture-coordinate set
short of the header's own description "everything except the indices"). -/
theorem C2_dataBlockSize_bug :
    dataBlockSize 2 = 3780 ∧
    vertexBytes 2 + Nprojections * texCoordSize 2 = 4284 ∧
    dataBlockSize 2 ≠ vertexBytes 2 + Nprojections * texCoordSize 2 := by
  refine ⟨by decide, by decide, by decide⟩

/-- C3 (counterexample): the input resolution 1 does NOT yield the bare cube:
the constructor rounds 1 up to 2 (`2 * ((1+1)/2) = 2`), which gives 24 quads,
not 6. -/
theorem C3_cex :
    effDivs 1 = 2 ∧ numQuads (effDivs 1).toNat = 24 ∧ (24 : ℕ) ≠ 6 := by
  refine ⟨by decide, by decide, by decide⟩

theorem tdiv_two_nonpos {a : ℤ} (h : a ≤ 0) : Int.tdiv a 2 ≤ 0 := by
  have h1 : a = -(-a) := by ring
  rw [h1, Int.neg_tdiv]
  have : 0 ≤ Int.tdiv (-a) 2 := Int.tdiv_nonneg (by omega) (by norm_num)
  omega

/-- C3 (amended): the constructor rounds an odd resolution d ≥ 1 up to d + 1
(in particular input 1 becomes 2), keeps an even resolution d ≥ 2, and clamps
every input d ≤ 0 to the minimum effective resolution 1; the effective
resolution 1 (reached only from inputs ≤ 0) yields the bare cube tessellation:
6 quads and 6·(1+1)² = 24 stored base vertices (8 distinct corner positions)
before seam duplication. -/
theorem C3_amended :
    (∀ d : ℤ, Odd d → 1 ≤ d → effDivs d = d + 1) ∧
    (∀ d : ℤ, Even d → 2 ≤ d → effDivs d = d) ∧
    (∀ d : ℤ, d ≤ 0 → effDivs d = 1) ∧
    (∀ d : ℤ, 1 ≤ effDivs d) ∧
    numQuads 1 = 6 ∧ 6 * ppf 1 = 24 := by
  refine ⟨?_, ?_, ?_, ?_, by decide, by decide⟩
  · rintro d ⟨m, rfl⟩ hd
    have h1 : 2 * m + 1 + 1 = 2 * (m + 1) := by ring
    simp only [effDivs, h1, Int.mul_tdiv_cancel_left _ (two_ne_zero)]
    have : ¬ (2 * (m + 1) < 1) := by omega
    simp [this]
  · rintro d ⟨m, rfl⟩ hd
    have h1 : m + m + 1 = 2 * m + 1 := by ring
    have h2 : Int.tdiv (2 * m + 1) 2 = m := by
      have hm : (0 : ℤ) ≤ 2 * m + 1 := by omega
      rw [Int.tdiv_eq_ediv hm (by norm_num)]
      omega
    simp only [effDivs, h1, h2]
    have : ¬ (2 * m < 1) := by omega
    simp [this]
    ring
  · intro d hd
    have hcase : d + 1 ≤ 0 ∨ d + 1 = 1 := by omega
    rcases hcase with h | h
    · have := tdiv_two_nonpos h
      simp only [effDivs]
      have : 2 * Int.tdiv (d + 1) 2 < 1 := by omega
      simp [this]
    · have h0 : Int.tdiv 1 2 = 0 := by decide
      simp [effDivs, h, h0]
  · intro d
    simp only [effDivs]
    by_cases h : 2 * Int.tdiv (d + 1) 2 < 1
    · simp [h]
    · simp [h]; omega

/-- C3 amended, witness at input 3 (odd, ≥ 1): rounds up to 4. -/
theorem C3_amended_witness : Odd (3 : ℤ) ∧ (1 : ℤ) ≤ 3 ∧ effDivs 3 = 4 :=
  ⟨⟨1, by norm_num⟩, by norm_num, C3_amended.1 3 ⟨1, by norm_num⟩ (by norm_num)⟩

/-- C9: a texture-coordinate lookup with an unsupported projection (catalog
index outside [0, Nprojections)) is signalled by a null pointer (`none`) and a
zero offset; a supported catalog index i returns the i-th coordinate set, at
`i * 2 * vertpnts` floats past the start of the coordinate block (which itself
starts `3 * vertpnts` floats past `verts`). -/
theorem C9_texCoords (n : ℕ) (i : ℤ) :
    ((i < 0 ∨ (Nprojections : ℤ) ≤ i) →
      texCoordsFloatOffset n i = none ∧ texCoordOffset n i = 0) ∧
    (0 ≤ i → i < Nprojections →
      texCoordsFloatOffset n i = some (3 * vertpnts n + i.toNat * (2 * vertpnts n)) ∧
      texCoordOffset n i = (3 * vertpnts n + i.toNat * (2 * vertpnts n)) * sizeofFloat) := by
  constructor
  · intro h
    simp [texCoordsFloatOffset, texCoordOffset, h]
  · intro h1 h2
    have h : ¬ (i < 0 ∨ (Nprojections : ℤ) ≤ i) := by omega
    simp [texCoordsFloatOffset, texCoordOffset, h]

/-- C9 witness: at n = 2, catalog index 2 (supported) and index 9 (unsupported). -/
theorem C9_texCoords_witness :
    ((9 : ℤ) < 0 ∨ (Nprojections : ℤ) ≤ 9) ∧ texCoordsFloatOffset 2 9 = none ∧
    (0 : ℤ) ≤ 2 ∧ (2 : ℤ) < Nprojections ∧ texCoordOffset 2 2 = 1764 :=
  ⟨Or.inr (by decide), ((C9_texCoords 2 9).1 (Or.inr (by decide))).1,
   by decide, by decide, by
    have := ((C9_texCoords 2 2).2 (by decide) (by decide)).2
    rw [this]; decide⟩

/-! ## Index builder

    Quad indices (quadsphere.cpp lines 238-254): the front face emits, for each
    cell (row r, col c), the four words `k+c, dp1+k+c, dp1+k+c+1, k+c+1` with
    `k = r*dp1`; a word-by-word copy loop whose read pointer trails the write
    pointer by exactly one face block then fills the other five faces, adding
    `ppf` per copied word.  Line indices (lines 256-318): six per-face loops copy
    each quad's four words, overwriting one position with a copy of another. -/

/-- Word `i` (flat emission order, `i = 4*(r*divs+c) + j`) of the front face's
quad index block. -/
def frontQuadWord (n i : ℕ) : ℕ :=
  let q := i / 4
  let j := i % 4
  let r := q / n
  let c := q % n
  let k := r * (n + 1)
  if j = 0 then k + c
  else if j = 1 then (n + 1) + k + c
  else if j = 2 then (n + 1) + k + c + 1
  else k + c + 1

/-- The copy loop `*pq++ = *qq++ + ppf` (20 * qpf words, read pointer one face
behind the write pointer): word `i` of the full quad index array is the front
word for `i < 4*qpf` and otherwise the word one face earlier plus `ppf`.
Structural fuel (5 = number of copied faces) stands in for the well-founded
descent. -/
def quadWordAux (n : ℕ) : ℕ → ℕ → ℕ
  | 0, i => frontQuadWord n i
  | fuel + 1, i =>
    if i < 4 * (n * n) then frontQuadWord n i
    else quadWordAux n fuel (i - 4 * (n * n)) + (n + 1) * (n + 1)

/-- Word `i` of the quad index array (before seam repair). -/
def quadWord (n i : ℕ) : ℕ := quadWordAux n 5 i

/-- The face-specific substitution of the line-index loops: position `j` of a
line quadruple is read from position `lineSub f j` of the quad quadruple.
Front, top, right (faces 0, 1, 5): position 2 ← corner 0; left, back (2, 3):
position 3 ← corner 1; bottom (4): position 1 ← corner 3. -/
def lineSub (f j : ℕ) : ℕ :=
  if f = 2 ∨ f = 3 then (if j = 3 then 1 else j)
  else if f = 4 then (if j = 1 then 3 else j)
  else (if j = 2 then 0 else j)

/-- Word `i` of the line index array: the six loops (one per face, `qpf` quads
each) copy the face's quad words through `lineSub`. -/
def lineWord (n i : ℕ) : ℕ :=
  let f := i / (4 * (n * n))
  let b := 4 * (i / 4)
  let j := i % 4
  quadWord n (b + lineSub f j)

/-! ### Characterisation of the quad words -/

theorem quadWordAux_face (n : ℕ) (hn : 1 ≤ n) :
    ∀ f fuel i, i < 4 * (n * n) → f ≤ fuel →
      quadWordAux n fuel (f * (4 * (n * n)) + i) =
        frontQuadWord n i + f * ((n + 1) * (n + 1)) := by
  intro f
  induction f with
  | zero =>
    intro fuel i hi _
    cases fuel with
    | zero => simp [quadWordAux]
    | succ g => simp [quadWordAux, hi]
  | succ f ih =>
    intro fuel i hi hf
    cases fuel with
    | zero => omega
    | succ g =>
      have hno : ¬ ((f + 1) * (4 * (n * n)) + i < 4 * (n * n)) := by
        have : 4 * (n * n) ≤ (f + 1) * (4 * (n * n)) := Nat.le_mul_of_pos_left _ (by omega)
        omega
      have harith : (f + 1) * (4 * (n * n)) + i - 4 * (n * n) = f * (4 * (n * n)) + i := by
        have h1 : (f + 1) * (4 * (n * n)) = f * (4 * (n * n)) + 4 * (n * n) := by ring
        omega
      simp only [quadWordAux, hno, if_false, harith]
      rw [ih g i hi (by omega)]
      ring

/-- Word `4*q + j` of a face block, in terms of the cell index `q` and corner
`j`: the front-face formula shifted by `f * ppf`. -/
theorem quadWord_eq (n : ℕ) (hn : 1 ≤ n) (f q j : ℕ) (hf : f < 6) (hq : q < n * n)
    (hj : j < 4) :
    quadWord n (4 * (f * (n * n) + q) + j) =
      frontQuadWord n (4 * q + j) + f * ((n + 1) * (n + 1)) := by
  have h1 : 4 * (f * (n * n) + q) + j = f * (4 * (n * n)) + (4 * q + j) := by ring
  have h2 : 4 * q + j < 4 * (n * n) := by omega
  rw [h1]
  exact quadWordAux_face n hn f 5 (4 * q + j) h2 (by omega)

/-- The front word of cell `q`, corner `j`, explicitly: corners
`K, K+(n+1), K+(n+1)+1, K+1` where `K = (q/n)*(n+1) + q%n`. -/
theorem frontQuadWord_eq (n q j : ℕ) (hj : j < 4) :
    frontQuadWord n (4 * q + j) =
      (if j = 0 then (q / n) * (n + 1) + q % n
       else if j = 1 then (n + 1) + (q / n) * (n + 1) + q % n
       else if j = 2 then (n + 1) + (q / n) * (n + 1) + q % n + 1
       else (q / n) * (n + 1) + q % n + 1) := by
  have hq : (4 * q + j) / 4 = q := by omega
  have hjj : (4 * q + j) % 4 = j := by omega
  simp only [frontQuadWord, hq, hjj]

theorem frontQuadWord_lt (n i : ℕ) (hn : 1 ≤ n) (hi : i < 4 * (n * n)) :
    frontQuadWord n i < (n + 1) * (n + 1) := by
  have hq : i / 4 < n * n := by omega
  have hr : i / 4 / n < n := (Nat.div_lt_iff_lt_mul (by omega)).mpr hq
  have hc : i / 4 % n < n := Nat.mod_lt _ (by omega)
  simp only [frontQuadWord]
  set r := i / 4 / n
  set c := i / 4 % n
  have hrm : r * (n + 1) ≤ (n - 1) * (n + 1) := Nat.mul_le_mul_right _ (by omega)
  have hexp : (n - 1) * (n + 1) + (n + 1) = n * (n + 1) := by
    have h1 : n - 1 + 1 = n := by omega
    calc (n - 1) * (n + 1) + (n + 1) = ((n - 1) + 1) * (n + 1) := by ring
    _ = n * (n + 1) := by rw [h1]
  have hbound : n * (n + 1) + n < (n + 1) * (n + 1) := by nlinarith
  split
  · omega
  · split
    · omega
    · split
      · omega
      · omega

theorem quadWord_lt (n i : ℕ) (hn : 1 ≤ n) (hi : i < 24 * (n * n)) :
    quadWord n i < 6 * ((n + 1) * (n + 1)) := by
  have hd : i = i / (4 * (n * n)) * (4 * (n * n)) + i % (4 * (n * n)) := by
    have h0 := Nat.div_add_mod i (4 * (n * n))
    calc i = 4 * (n * n) * (i / (4 * (n * n))) + i % (4 * (n * n)) := h0.symm
    _ = i / (4 * (n * n)) * (4 * (n * n)) + i % (4 * (n * n)) := by ring
  have hf : i / (4 * (n * n)) < 6 := by
    apply (Nat.div_lt_iff_lt_mul (by positivity)).mpr
    omega
  have hm : i % (4 * (n * n)) < 4 * (n * n) := Nat.mod_lt _ (by positivity)
  rw [show quadWord n i = quadWord n (i / (4 * (n * n)) * (4 * (n * n)) + i % (4 * (n * n)))
      from by rw [← hd]]
  rw [show quadWord n _ = _ from
    quadWordAux_face n hn (i / (4 * (n * n))) 5 (i % (4 * (n * n))) hm (by omega)]
  have := frontQuadWord_lt n (i % (4 * (n * n))) hn hm
  have : i / (4 * (n * n)) * ((n + 1) * (n + 1)) ≤ 5 * ((n + 1) * (n + 1)) :=
    Nat.mul_le_mul_right _ (by omega)
  omega

theorem lineWord_lt (n i : ℕ) (hn : 1 ≤ n) (hi : i < 24 * (n * n)) :
    lineWord n i < 6 * ((n + 1) * (n + 1)) := by
  have hb : 4 * (i / 4) + 3 < 24 * (n * n) := by omega
  have hsub : lineSub (i / (4 * (n * n))) (i % 4) ≤ 3 := by
    simp only [lineSub]
    split
    · split <;> omega
    · split
      · split <;> omega
      · split <;> omega
  simp only [lineWord]
  exact quadWord_lt n _ hn (by omega)

/-! ### Claim C6: line indices -/

/-- Corner `j` (0..3) of the quad-index quadruple of cell `q` on face `f`. -/
def quadCorner (n f q j : ℕ) : ℕ := quadWord n (4 * (f * (n * n) + q) + j)

/-- Corner `j` (0..3) of the line-index quadruple of cell `q` on face `f`. -/
def lineCorner (n f q j : ℕ) : ℕ := lineWord n (4 * (f * (n * n) + q) + j)

/-- Two ordered index pairs describe the same undirected segment. -/
def edgeEq (s e : ℕ × ℕ) : Prop := s = e ∨ s = (e.2, e.1)

/-- C6 (counterexample): on the front face the line quadruple of cell 0
(resolution 2) is `[0,3,0,1]` and the quad quadruple is `[0,3,4,1]`: they differ
in exactly 1 of the 4 positions, not 2 as the claim states. -/
theorem C6_cex :
    ((List.range 4).filter (fun j => lineCorner 2 0 0 j ≠ quadCorner 2 0 0 j)).length = 1 ∧
    (1 : ℕ) ≠ 2 := by
  constructor
  · decide
  · decide

theorem lineCorner_sub (n f q : ℕ) (hn : 1 ≤ n) (hq : q < n * n) :
    ∀ j, j < 4 → lineCorner n f q j = quadCorner n f q (lineSub f j) := by
  intro j hj
  have hlt : 4 * q + j < 4 * (n * n) := by omega
  have hrw : 4 * (f * (n * n) + q) + j = 4 * q + j + f * (4 * (n * n)) := by ring
  have hdiv : (4 * (f * (n * n) + q) + j) / (4 * (n * n)) = f := by
    rw [hrw, Nat.add_mul_div_right _ _ (by positivity), Nat.div_eq_of_lt hlt]
    omega
  have hdiv4 : (4 * (f * (n * n) + q) + j) / 4 = f * (n * n) + q := by omega
  have hmod4 : (4 * (f * (n * n) + q) + j) % 4 = j := by omega
  simp only [lineCorner, lineWord, hdiv, hdiv4, hmod4, quadCorner]

theorem quadCorner_eq (n f q : ℕ) (hn : 1 ≤ n) (hf : f < 6) (hq : q < n * n) :
    ∀ j, j < 4 → quadCorner n f q j =
      f * ((n + 1) * (n + 1)) + (q / n) * (n + 1) + q % n +
        (if j = 0 then 0 else if j = 1 then n + 1 else if j = 2 then n + 2 else 1) := by
  intro j hj
  simp only [quadCorner]
  rw [quadWord_eq n hn f q j hf hq hj, frontQuadWord_eq n q j hj]
  rcases (by omega : j = 0 ∨ j = 1 ∨ j = 2 ∨ j = 3) with h | h | h | h <;>
    subst h <;> norm_num <;> ring

/-- C6 (amended): for every face and grid cell, the line-index quadruple equals
the quad-index quadruple with ONE of the four positions overwritten by a
duplicate of one other, per the face-specific substitution table
(front/top/right: corner 0 replaces corner 2; back/left: corner 1 replaces
corner 3; bottom: corner 3 replaces corner 1), so that the 2-segment line draw
renders exactly 2 distinct edges of the quad's 4 edges. -/
theorem C6_amended (n f q : ℕ) (hn : 1 ≤ n) (hf : f < 6) (hq : q < n * n) :
    (∀ j, j < 4 → lineCorner n f q j = quadCorner n f q (lineSub f j)) ∧
    (∃ e1 e2 : ℕ × ℕ,
      (e1 = (quadCorner n f q 0, quadCorner n f q 1) ∨
       e1 = (quadCorner n f q 1, quadCorner n f q 2) ∨
       e1 = (quadCorner n f q 2, quadCorner n f q 3) ∨
       e1 = (quadCorner n f q 3, quadCorner n f q 0)) ∧
      (e2 = (quadCorner n f q 0, quadCorner n f q 1) ∨
       e2 = (quadCorner n f q 1, quadCorner n f q 2) ∨
       e2 = (quadCorner n f q 2, quadCorner n f q 3) ∨
       e2 = (quadCorner n f q 3, quadCorner n f q 0)) ∧
      ¬ edgeEq e1 e2 ∧
      edgeEq (lineCorner n f q 0, lineCorner n f q 1) e1 ∧
      edgeEq (lineCorner n f q 2, lineCorner n f q 3) e2) := by
  have hsub := lineCorner_sub n f q hn hq
  refine ⟨hsub, ?_⟩
  have hQ := quadCorner_eq n f q hn hf hq
  have hQ0 := hQ 0 (by omega)
  have hQ1 := hQ 1 (by omega)
  have hQ2 := hQ 2 (by omega)
  have hQ3 := hQ 3 (by omega)
  norm_num at hQ0 hQ1 hQ2 hQ3
  have hL0 := hsub 0 (by omega)
  have hL1 := hsub 1 (by omega)
  have hL2 := hsub 2 (by omega)
  have hL3 := hsub 3 (by omega)
  set K := f * ((n + 1) * (n + 1)) + (q / n) * (n + 1) + q % n with hK
  rcases (by omega : f = 0 ∨ f = 1 ∨ f = 2 ∨ f = 3 ∨ f = 4 ∨ f = 5) with h | h | h | h | h | h <;>
    subst h <;> simp only [lineSub] at hL0 hL1 hL2 hL3 <;> norm_num at hL0 hL1 hL2 hL3
  -- front: segments (Q0,Q1) and (Q0,Q3)
  · refine ⟨(quadCorner n 0 q 0, quadCorner n 0 q 1),
            (quadCorner n 0 q 3, quadCorner n 0 q 0), Or.inl rfl, Or.inr (Or.inr (Or.inr rfl)),
            ?_, Or.inl (by rw [hL0, hL1]), Or.inr (by rw [hL2, hL3])⟩
    simp only [edgeEq, Prod.mk.injEq, not_or]
    omega
  -- top: same pattern as front
  · refine ⟨(quadCorner n 1 q 0, quadCorner n 1 q 1),
            (quadCorner n 1 q 3, quadCorner n 1 q 0), Or.inl rfl, Or.inr (Or.inr (Or.inr rfl)),
            ?_, Or.inl (by rw [hL0, hL1]), Or.inr (by rw [hL2, hL3])⟩
    simp only [edgeEq, Prod.mk.injEq, not_or]
    omega
  -- left: segments (Q0,Q1) and (Q2,Q1)
  · refine ⟨(quadCorner n 2 q 0, quadCorner n 2 q 1),
            (quadCorner n 2 q 1, quadCorner n 2 q 2), Or.inl rfl, Or.inr (Or.inl rfl),
            ?_, Or.inl (by rw [hL0, hL1]), Or.inr (by rw [hL2, hL3])⟩
    simp only [edgeEq, Prod.mk.injEq, not_or]
    omega
  -- back: same pattern as left
  · refine ⟨(quadCorner n 3 q 0, quadCorner n 3 q 1),
            (quadCorner n 3 q 1, quadCorner n 3 q 2), Or.inl rfl, Or.inr (Or.inl rfl),
            ?_, Or.inl (by rw [hL0, hL1]), Or.inr (by rw [hL2, hL3])⟩
    simp only [edgeEq, Prod.mk.injEq, not_or]
    omega
  -- bottom: segments (Q0,Q3) and (Q2,Q3)
  · refine ⟨(quadCorner n 4 q 3, quadCorner n 4 q 0),
            (quadCorner n 4 q 2, quadCorner n 4 q 3), Or.inr (Or.inr (Or.inr rfl)),
            Or.inr (Or.inr (Or.inl rfl)),
            ?_, Or.inr (by rw [hL0, hL1]), Or.inl (by rw [hL2, hL3])⟩
    simp only [edgeEq, Prod.mk.injEq, not_or]
    omega
  -- right: same pattern as front
  · refine ⟨(quadCorner n 5 q 0, quadCorner n 5 q 1),
            (quadCorner n 5 q 3, quadCorner n 5 q 0), Or.inl rfl, Or.inr (Or.inr (Or.inr rfl)),
            ?_, Or.inl (by rw [hL0, hL1]), Or.inr (by rw [hL2, hL3])⟩
    simp only [edgeEq, Prod.mk.injEq, not_or]
    omega

/-- C6 amended, witness at resolution 2, front face, cell 0, position 2: the
line word duplicates corner 0. -/
theorem C6_amended_witness :
    (1 : ℕ) ≤ 2 ∧ (0 : ℕ) < 6 ∧ (0 : ℕ) < 2 * 2 ∧ (2 : ℕ) < 4 ∧
    lineCorner 2 0 0 2 = quadCorner 2 0 0 (lineSub 0 2) :=
  ⟨by decide, by decide, by decide, by decide,
   (C6_amended 2 0 0 (by decide) (by decide) (by decide)).1 2 (by decide)⟩

/-! ## Seam repair: quad-index patching (quadsphere.cpp lines 468-479, 538-566,
    592-636)

    The line and quad index arrays live back to back in one block
    (`quadidx = lineidx + linewrds`), so the patch positions are modelled as a
    single word region `[0, 48*qpf)`: words `< 24*qpf` are `lineidx`, the rest
    `quadidx`.  Positions are ℤ because for divs = 1 the top-centre fix writes
    through `pq[-2]` below the start of `quadidx` (into the line array). -/

/-- First duplicate vertex index: `idt = 6 * ppf`. -/
def idt0 (n : ℕ) : ℕ := 6 * ppf n

/-- `idk = idt + ntb`. -/
def idk0 (n : ℕ) : ℕ := idt0 n + ntb n

/-- `idb = idk + dp1`. -/
def idb0 (n : ℕ) : ℕ := idk0 n + dp1 n

/-- `idc = idb + ntb`. -/
def idc0 (n : ℕ) : ℕ := idb0 n + ntb n

/-- `iqt = qpf + d2` (top rear quad). -/
def iqt (n : ℕ) : ℕ := qpf n + d2 n

/-- `iqk = 3 * qpf + d2` (back upper quad). -/
def iqk (n : ℕ) : ℕ := 3 * qpf n + d2 n

/-- `iqb = 4*qpf + (divs - 1 - qtb)*divs + d2`; with C int arithmetic
`divs - 1 - qtb = divs - ntb` (also for divs = 1, where `qtb = -1`). -/
def iqb (n : ℕ) : ℕ := 4 * qpf n + (n - ntb n) * n + d2 n

/-- `qtb = ntb - 1` (C int, = -1 for divs = 1).  The ℕ clamp at 0 reproduces
the divs = 1 behaviour exactly: the loops it bounds are skipped and the final
unadvanced write targets the start quad. -/
def qtbN (n : ℕ) : ℕ := ntb n - 1

/-- Global word position of corner `p` of quad `Q` inside the combined index
region (`quadidx` starts `24*qpf` words after `lineidx`). -/
def gq (n Q p : ℕ) : ℤ := ((24 * qpf n + 4 * Q + p : ℕ) : ℤ)

/-- Top-seam patch (lines 542-548): for `qtb` rows, corners 0 and 1 of quad
`iqt + r*divs` become `idt + r` and `idt + r + 1`; the final row gets corner 0
only. -/
def topSeamPatch (n : ℕ) : List (ℤ × ℕ) :=
  (List.range (qtbN n)).flatMap (fun r =>
    [(gq n (iqt n + r * n) 0, idt0 n + r), (gq n (iqt n + r * n) 1, idt0 n + r + 1)])
  ++ [(gq n (iqt n + qtbN n * n) 0, idt0 n + qtbN n)]

/-- Back-seam patch (lines 550-557): every row `r < divs` of the back column
gets corner 0 ← `idk + r` and corner 1 ← `idk + r + 1`. -/
def backSeamPatch (n : ℕ) : List (ℤ × ℕ) :=
  (List.range n).flatMap (fun r =>
    [(gq n (iqk n + r * n) 0, idk0 n + r), (gq n (iqk n + r * n) 1, idk0 n + r + 1)])

/-- Bottom-seam patch (lines 560-566): quad `iqb` gets corner 1 ← `idb`; the
following `qtb` rows get corners 0 and 1. -/
def botSeamPatch (n : ℕ) : List (ℤ × ℕ) :=
  [(gq n (iqb n) 1, idb0 n)]
  ++ (List.range (qtbN n)).flatMap (fun r =>
    [(gq n (iqb n + (r + 1) * n) 0, idb0 n + r), (gq n (iqb n + (r + 1) * n) 1, idb0 n + r + 1)])

/-- `pq = quadidx + 4*(qpf + jq)` with `jq = divs*(d2 - 1) + d2` (C int: -1 for
divs = 1), as a global word position. -/
def topCenterBase (n : ℕ) : ℤ :=
  24 * qpf n + 4 * ((qpf n : ℤ) + n * ((d2 n : ℤ) - 1) + d2 n)

/-- `pq = quadidx + 4*(4*qpf + jq)` with `jq = (divs + 1)*d2`. -/
def botCenterBase (n : ℕ) : ℤ :=
  24 * qpf n + 4 * (4 * (qpf n : ℤ) + ((n : ℤ) + 1) * (d2 n : ℤ))

/-- Pole-centre patch (lines 612, 635): `pq[-2] = idc; pq[1] = idc + 1` at the
top centre and `pq[-1] = idc + 2; pq[0] = idc + 3` at the bottom centre. -/
def centerPatch (n : ℕ) : List (ℤ × ℕ) :=
  [(topCenterBase n - 2, idc0 n), (topCenterBase n + 1, idc0 n + 1),
   (botCenterBase n - 1, idc0 n + 2), (botCenterBase n, idc0 n + 3)]

/-- All seam-repair index writes, in program order. -/
def patches (n : ℕ) : List (ℤ × ℕ) :=
  topSeamPatch n ++ backSeamPatch n ++ botSeamPatch n ++ centerPatch n

/-- Word `w` of the combined index region after construction completes: the last
patch write to `w` if any, else the value the index builder put there. -/
def finalWord (n : ℕ) (w : ℤ) : ℕ :=
  match (patches n).reverse.find? (fun e => e.1 == w) with
  | some e => e.2
  | none =>
    if w < ((24 * qpf n : ℕ) : ℤ) then lineWord n w.toNat
    else quadWord n (w - ((24 * qpf n : ℕ) : ℤ)).toNat

theorem patches_val_lt (n : ℕ) : ∀ e ∈ patches n, e.2 < vertpnts n := by
  intro e he
  simp only [patches, List.mem_append] at he
  have hv : vertpnts n = 6 * ppf n + (n + 1) + 2 * (n / 2) + 4 := by
    simp only [vertpnts, dups, dp1, ntb, d2]; ring
  rcases he with ((htop | hback) | hbot) | hcen
  · simp only [topSeamPatch, List.mem_append, List.mem_flatMap, List.mem_range,
      List.mem_cons, List.mem_singleton, List.not_mem_nil, or_false] at htop
    rcases htop with ⟨r, hr, rfl | rfl⟩ | rfl <;>
      simp only [idt0, idk0, idb0, idc0, qtbN, ntb, d2, dp1, ppf] at * <;> omega
  · simp only [backSeamPatch, List.mem_flatMap, List.mem_range, List.mem_cons,
      List.mem_singleton, List.not_mem_nil, or_false] at hback
    rcases hback with ⟨r, hr, rfl | rfl⟩ <;>
      simp only [idt0, idk0, idb0, idc0, qtbN, ntb, d2, dp1, ppf] at * <;> omega
  · simp only [botSeamPatch, List.mem_append, List.mem_flatMap, List.mem_range,
      List.mem_cons, List.mem_singleton, List.not_mem_nil, or_false] at hbot
    rcases hbot with rfl | ⟨r, hr, rfl | rfl⟩ <;>
      simp only [idt0, idk0, idb0, idc0, qtbN, ntb, d2, dp1, ppf] at * <;> omega
  · simp only [centerPatch, List.mem_cons, List.mem_singleton, List.not_mem_nil,
      or_false] at hcen
    rcases hcen with rfl | rfl | rfl | rfl <;>
      simp only [idt0, idk0, idb0, idc0, qtbN, ntb, d2, dp1, ppf] at * <;> omega

/-- C7: every word of the quad and line index arrays emitted by the index
builder lies within [0, 6*(divs+1)²) (the pre-repair vertex count), and after
seam repair every word of the combined index region lies within
[0, vertpnts). -/
theorem C7_index_bounds (n : ℕ) (hn : 1 ≤ n) :
    (∀ i, i < 24 * (n * n) →
      quadWord n i < 6 * ((n + 1) * (n + 1)) ∧ lineWord n i < 6 * ((n + 1) * (n + 1))) ∧
    (∀ w : ℤ, 0 ≤ w → w < ((48 * (n * n) : ℕ) : ℤ) → finalWord n w < vertpnts n) := by
  constructor
  · intro i hi
    exact ⟨quadWord_lt n i hn hi, lineWord_lt n i hn hi⟩
  · intro w h0 hw
    have hbase : 6 * ((n + 1) * (n + 1)) ≤ vertpnts n := by
      simp only [vertpnts, ppf, dp1]; omega
    rcases hfind : (patches n).reverse.find? (fun e => e.1 == w) with _ | e
    · simp only [finalWord, hfind]
      split
      · rename_i hlt
        have htn : w.toNat < 24 * (n * n) := by
          simp only [qpf] at hlt; omega
        exact lt_of_lt_of_le (lineWord_lt n _ hn htn) hbase
      · rename_i hge
        have htn : (w - ((24 * qpf n : ℕ) : ℤ)).toNat < 24 * (n * n) := by
          simp only [qpf] at hge hw ⊢; omega
        exact lt_of_lt_of_le (quadWord_lt n _ hn htn) hbase
    · simp only [finalWord, hfind]
      have hmem : e ∈ (patches n).reverse := List.mem_of_find?_eq_some hfind
      exact patches_val_lt n e (List.mem_reverse.mp hmem)

/-- C7 witness at resolution 2, word 0 of the repaired region. -/
theorem C7_index_bounds_witness :
    (1 : ℕ) ≤ 2 ∧ (0 : ℤ) ≤ 0 ∧ (0 : ℤ) < ((48 * (2 * 2) : ℕ) : ℤ) ∧
    finalWord 2 0 < vertpnts 2 :=
  ⟨by decide, by decide, by decide,
   (C7_index_bounds 2 (by decide)).2 0 (by decide) (by decide)⟩

/-! ## Vertex generator (quadsphere.cpp lines 50-67 and 159-230)

    The float computation is modelled over ℝ. -/

/-- A 3-vector (one vertex). -/
structure Vec3 where
  x : ℝ
  y : ℝ
  z : ℝ

/-- `dotp(a, b)`. -/
def dot (a b : Vec3) : ℝ := a.x * b.x + a.y * b.y + a.z * b.z

/-- `ccc = sqrt(1.0/3.0)`: cube corner coordinate. -/
noncomputable def ccc : ℝ := Real.sqrt (1 / 3)

/-- Upper-left corner of the front face. -/
noncomputable def vul : Vec3 := ⟨ccc, ccc, ccc⟩

/-- Upper-right corner. -/
noncomputable def vur : Vec3 := ⟨-ccc, ccc, ccc⟩

/-- Lower-left corner. -/
noncomputable def vll : Vec3 := ⟨ccc, -ccc, ccc⟩

/-- Lower-right corner. -/
noncomputable def vlr : Vec3 := ⟨-ccc, -ccc, ccc⟩

/-- `som = sqrt(1 - om*om)` where `om` initially holds `cos` of the angle
(`dotp(v0, v1)`). -/
noncomputable def slerpSom (v0 v1 : Vec3) : ℝ := Real.sqrt (1 - dot v0 v1 * dot v0 v1)

/-- `om = asin(som)`: the angle recovered by the code. -/
noncomputable def slerpOm (v0 v1 : Vec3) : ℝ := Real.arcsin (slerpSom v0 v1)

/-- The slerp weight `sin(om * u) / som` (`a` at `u = 1 - t`, `b` at `u = t`). -/
noncomputable def slerpW (v0 v1 : Vec3) (u : ℝ) : ℝ :=
  Real.sin (slerpOm v0 v1 * u) / slerpSom v0 v1

/-- Sample `i` of `slerp(divs, v0, v1, …)`: `t = i * (1.0/divs)`,
result `= v0 * a + v1 * b`. -/
noncomputable def slerpPt (v0 v1 : Vec3) (n i : ℕ) : Vec3 :=
  ⟨v0.x * slerpW v0 v1 (1 - i * (1 / n)) + v1.x * slerpW v0 v1 (i * (1 / n)),
   v0.y * slerpW v0 v1 (1 - i * (1 / n)) + v1.y * slerpW v0 v1 (i * (1 / n)),
   v0.z * slerpW v0 v1 (1 - i * (1 / n)) + v1.z * slerpW v0 v1 (i * (1 / n))⟩

/-- Row `r`, column `c` of the front (+Z) face.  The outer double-precision loop
computes the row endpoints `v0, v1` with one shared pair of weights whose angle
comes from `dotp(vul, vll)`; since `dotp(vur, vlr) = dotp(vul, vll) = 1/3`,
those endpoints are exactly `slerpPt vul vll n r` and `slerpPt vur vlr n r`.
The inner `slerp(divs, v0, v1, …)` call then fills the row. -/
noncomputable def frontV (n r c : ℕ) : Vec3 :=
  slerpPt (slerpPt vul vll n r) (slerpPt vur vlr n r) n c

/-- The per-face axis permutation / sign flip (quadsphere.cpp lines 203-230)
sending the front-face point at a flat layout position to the same position of
face `f` (0 front, 1 top, 2 left, 3 back, 4 bottom, 5 right). -/
def rotFace (f : ℕ) (v : Vec3) : Vec3 :=
  if f = 0 then v
  else if f = 1 then ⟨v.x, v.z, -v.y⟩
  else if f = 2 then ⟨v.z, v.y, -v.x⟩
  else if f = 3 then ⟨-v.x, v.y, -v.z⟩
  else if f = 4 then ⟨v.x, -v.z, v.y⟩
  else ⟨-v.z, v.y, v.x⟩

/-- Vertex `p` of the base grid region (`p < 6 * ppf`): face `p / ppf`,
within-face index `q = p % ppf`, row `q / dp1`, column `q % dp1`. -/
noncomputable def baseVert (n p : ℕ) : Vec3 :=
  rotFace (p / ppf n) (frontV n (p % ppf n / dp1 n) (p % ppf n % dp1 n))

/-- Vertex `p` of the finished vertex array: the base grid for `p < 6 * ppf`,
then the seam and pole duplicates (lines 480-536 and 581-588), each a plain copy
of a base vertex: top seam sources `ipt + r*dp1`, back seam `ipk + r*dp1`,
bottom seam `ipb + r*dp1`, then two copies of the top centre `ic` and two of
the bottom centre `id`. -/
noncomputable def vertAt (n p : ℕ) : Vec3 :=
  if p < 6 * ppf n then baseVert n p
  else if p - 6 * ppf n < ntb n then
    baseVert n (ppf n + d2 n + (p - 6 * ppf n) * dp1 n)
  else if p - 6 * ppf n < ntb n + dp1 n then
    baseVert n (3 * ppf n + d2 n + (p - 6 * ppf n - ntb n) * dp1 n)
  else if p - 6 * ppf n < 2 * ntb n + dp1 n then
    baseVert n (4 * ppf n + (dp1 n - ntb n) * dp1 n + d2 n
      + (p - 6 * ppf n - ntb n - dp1 n) * dp1 n)
  else if p - 6 * ppf n < 2 * ntb n + dp1 n + 2 then
    baseVert n (ppf n + (dp1 n + 1) * d2 n)
  else
    baseVert n (4 * ppf n + (dp1 n + 1) * d2 n)

/-! ### Unit-length proofs -/

theorem hccc_sq : ccc ^ 2 = 1 / 3 := Real.sq_sqrt (by norm_num)

theorem dot_vul_vul : dot vul vul = 1 := by
  simp only [dot, vul]; linear_combination 3 * hccc_sq

theorem dot_vll_vll : dot vll vll = 1 := by
  simp only [dot, vll]; linear_combination 3 * hccc_sq

theorem dot_vur_vur : dot vur vur = 1 := by
  simp only [dot, vur]; linear_combination 3 * hccc_sq

theorem dot_vlr_vlr : dot vlr vlr = 1 := by
  simp only [dot, vlr]; linear_combination 3 * hccc_sq

theorem dot_vul_vll : dot vul vll = 1 / 3 := by
  simp only [dot, vul, vll]; linear_combination hccc_sq

theorem dot_vur_vlr : dot vur vlr = 1 / 3 := by
  simp only [dot, vur, vlr]; linear_combination hccc_sq

theorem dot_vul_vur : dot vul vur = 1 / 3 := by
  simp only [dot, vul, vur]; linear_combination hccc_sq

theorem dot_vul_vlr : dot vul vlr = -(1 / 3) := by
  simp only [dot, vul, vlr]; linear_combination (-1 : ℝ) * hccc_sq

theorem dot_vll_vur : dot vll vur = -(1 / 3) := by
  simp only [dot, vll, vur]; linear_combination (-1 : ℝ) * hccc_sq

theorem dot_vll_vlr : dot vll vlr = 1 / 3 := by
  simp only [dot, vll, vlr]; linear_combination hccc_sq

theorem slerpSom_pos (v0 v1 : Vec3) (hd0 : 0 ≤ dot v0 v1) (hd1 : dot v0 v1 < 1) :
    0 < slerpSom v0 v1 :=
  Real.sqrt_pos.mpr (by nlinarith)

theorem slerpSom_le_one (v0 v1 : Vec3) (hd0 : 0 ≤ dot v0 v1) :
    slerpSom v0 v1 ≤ 1 := by
  have h1 : 1 - dot v0 v1 * dot v0 v1 ≤ 1 := by nlinarith
  calc slerpSom v0 v1 ≤ Real.sqrt 1 := Real.sqrt_le_sqrt h1
  _ = 1 := Real.sqrt_one

theorem sin_slerpOm (v0 v1 : Vec3) (hd0 : 0 ≤ dot v0 v1) (hd1 : dot v0 v1 < 1) :
    Real.sin (slerpOm v0 v1) = slerpSom v0 v1 :=
  Real.sin_arcsin (le_trans (by norm_num) (le_of_lt (slerpSom_pos v0 v1 hd0 hd1)))
    (slerpSom_le_one v0 v1 hd0)

theorem cos_slerpOm (v0 v1 : Vec3) (hd0 : 0 ≤ dot v0 v1) (hd1 : dot v0 v1 < 1) :
    Real.cos (slerpOm v0 v1) = dot v0 v1 := by
  have hsq : slerpSom v0 v1 ^ 2 = 1 - dot v0 v1 * dot v0 v1 :=
    Real.sq_sqrt (by nlinarith)
  rw [slerpOm, Real.cos_arcsin, hsq]
  have h1 : 1 - (1 - dot v0 v1 * dot v0 v1) = dot v0 v1 ^ 2 := by ring
  rw [h1, Real.sqrt_sq hd0]

/-- Algebraic core: true slerp between unit vectors lands on the unit sphere
(the float code inherits this up to rounding; the real-number model is exact). -/
theorem slerpPt_unit (v0 v1 : Vec3) (n i : ℕ) (h0 : dot v0 v0 = 1) (h1 : dot v1 v1 = 1)
    (hd0 : 0 ≤ dot v0 v1) (hd1 : dot v0 v1 < 1) :
    dot (slerpPt v0 v1 n i) (slerpPt v0 v1 n i) = 1 := by
  have hkey : dot (slerpPt v0 v1 n i) (slerpPt v0 v1 n i)
      = slerpW v0 v1 (1 - i * (1 / n)) ^ 2 * dot v0 v0
        + 2 * slerpW v0 v1 (1 - i * (1 / n)) * slerpW v0 v1 (i * (1 / n)) * dot v0 v1
        + slerpW v0 v1 (i * (1 / n)) ^ 2 * dot v1 v1 := by
    simp only [slerpPt, dot]; ring
  rw [hkey, h0, h1]
  have hsom_pos := slerpSom_pos v0 v1 hd0 hd1
  have hsom_ne : slerpSom v0 v1 ≠ 0 := ne_of_gt hsom_pos
  have hsinom := sin_slerpOm v0 v1 hd0 hd1
  have hcosom := cos_slerpOm v0 v1 hd0 hd1
  simp only [slerpW]
  set A := slerpOm v0 v1 * (1 - i * (1 / n)) with hA
  set B := slerpOm v0 v1 * (i * (1 / n)) with hB
  have hAB : A + B = slerpOm v0 v1 := by rw [hA, hB]; ring
  have hexp : Real.sin A ^ 2 + Real.sin B ^ 2
      + 2 * Real.sin A * Real.sin B * Real.cos (A + B) = Real.sin (A + B) ^ 2 := by
    rw [Real.sin_add, Real.cos_add]
    nlinarith [Real.sin_sq_add_cos_sq A, Real.sin_sq_add_cos_sq B]
  rw [hAB, hsinom, hcosom] at hexp
  have hfrac : (Real.sin A / slerpSom v0 v1) ^ 2 * 1
      + 2 * (Real.sin A / slerpSom v0 v1) * (Real.sin B / slerpSom v0 v1) * dot v0 v1
      + (Real.sin B / slerpSom v0 v1) ^ 2 * 1
      = (Real.sin A ^ 2 + Real.sin B ^ 2 + 2 * Real.sin A * Real.sin B * dot v0 v1)
          / slerpSom v0 v1 ^ 2 := by
    field_simp
    ring
  rw [hfrac, hexp, div_self (pow_ne_zero 2 hsom_ne)]

theorem slerpW_nonneg (v0 v1 : Vec3) (u : ℝ) (hu0 : 0 ≤ u) (hu1 : u ≤ 1)
    (hd0 : 0 ≤ dot v0 v1) (hd1 : dot v0 v1 < 1) : 0 ≤ slerpW v0 v1 u := by
  have hsom_pos := slerpSom_pos v0 v1 hd0 hd1
  have hom0 : 0 ≤ slerpOm v0 v1 := Real.arcsin_nonneg.mpr (Real.sqrt_nonneg _)
  have hom2 : slerpOm v0 v1 ≤ Real.pi / 2 := Real.arcsin_le_pi_div_two _
  apply div_nonneg _ (le_of_lt hsom_pos)
  apply Real.sin_nonneg_of_nonneg_of_le_pi
  · positivity
  · have h1 : slerpOm v0 v1 * u ≤ slerpOm v0 v1 := mul_le_of_le_one_right hom0 hu1
    have := Real.pi_pos
    linarith

theorem slerpW_le_one (v0 v1 : Vec3) (u : ℝ) (hu0 : 0 ≤ u) (hu1 : u ≤ 1)
    (hd0 : 0 ≤ dot v0 v1) (hd1 : dot v0 v1 < 1) : slerpW v0 v1 u ≤ 1 := by
  have hsom_pos := slerpSom_pos v0 v1 hd0 hd1
  have hom0 : 0 ≤ slerpOm v0 v1 := Real.arcsin_nonneg.mpr (Real.sqrt_nonneg _)
  have hom2 : slerpOm v0 v1 ≤ Real.pi / 2 := Real.arcsin_le_pi_div_two _
  have hmono : Real.sin (slerpOm v0 v1 * u) ≤ Real.sin (slerpOm v0 v1) := by
    apply Real.strictMonoOn_sin.monotoneOn
    · constructor
      · have := Real.pi_pos; have : 0 ≤ slerpOm v0 v1 * u := by positivity
        linarith [Real.pi_pos]
      · have h1 : slerpOm v0 v1 * u ≤ slerpOm v0 v1 := mul_le_of_le_one_right hom0 hu1
        linarith
    · constructor
      · linarith [Real.pi_pos]
      · exact hom2
    · exact mul_le_of_le_one_right hom0 hu1
  rw [slerpW, div_le_one hsom_pos, ← sin_slerpOm v0 v1 hd0 hd1]
  exact hmono

/-- The two row endpoints used for row `r` have a dot product `(a-b)²/3 ∈ [0, 1)`
(`a`, `b` the shared slerp weights). -/
theorem rows_dot (n r : ℕ) (hn : 1 ≤ n) (hr : r ≤ n) :
    0 ≤ dot (slerpPt vul vll n r) (slerpPt vur vlr n r) ∧
    dot (slerpPt vul vll n r) (slerpPt vur vlr n r) < 1 := by
  have hWeq : ∀ u : ℝ, slerpW vur vlr u = slerpW vul vll u := by
    intro u
    simp only [slerpW, slerpOm, slerpSom, dot_vur_vlr, dot_vul_vll]
  have hgen : dot (slerpPt vul vll n r) (slerpPt vur vlr n r)
      = slerpW vul vll (1 - r * (1 / n)) * slerpW vur vlr (1 - r * (1 / n)) * dot vul vur
        + slerpW vul vll (1 - r * (1 / n)) * slerpW vur vlr (r * (1 / n)) * dot vul vlr
        + slerpW vul vll (r * (1 / n)) * slerpW vur vlr (1 - r * (1 / n)) * dot vll vur
        + slerpW vul vll (r * (1 / n)) * slerpW vur vlr (r * (1 / n)) * dot vll vlr := by
    simp only [slerpPt, dot]
    ring
  have hkey : dot (slerpPt vul vll n r) (slerpPt vur vlr n r)
      = (1 / 3) * (slerpW vul vll (1 - r * (1 / n)) - slerpW vul vll (r * (1 / n))) ^ 2 := by
    rw [hgen, hWeq, hWeq, dot_vul_vur, dot_vul_vlr, dot_vll_vur, dot_vll_vlr]
    ring
  have hd0 : (0 : ℝ) ≤ dot vul vll := by rw [dot_vul_vll]; norm_num
  have hd1 : dot vul vll < 1 := by rw [dot_vul_vll]; norm_num
  have ht0 : (0 : ℝ) ≤ (r : ℝ) * (1 / n) := by positivity
  have ht1 : (r : ℝ) * (1 / n) ≤ 1 := by
    have hnp : (0 : ℝ) < n := by exact_mod_cast hn
    rw [mul_one_div, div_le_one hnp]
    exact_mod_cast hr
  have ha0 := slerpW_nonneg vul vll (1 - r * (1 / n)) (by linarith) (by linarith) hd0 hd1
  have ha1 := slerpW_le_one vul vll (1 - r * (1 / n)) (by linarith) (by linarith) hd0 hd1
  have hb0 := slerpW_nonneg vul vll (r * (1 / n)) ht0 ht1 hd0 hd1
  have hb1 := slerpW_le_one vul vll (r * (1 / n)) ht0 ht1 hd0 hd1
  constructor
  · rw [hkey]; positivity
  · rw [hkey]; nlinarith

theorem frontV_unit (n r c : ℕ) (hn : 1 ≤ n) (hr : r ≤ n) :
    dot (frontV n r c) (frontV n r c) = 1 := by
  have hd0 : (0 : ℝ) ≤ dot vul vll := by rw [dot_vul_vll]; norm_num
  have hd1 : dot vul vll < 1 := by rw [dot_vul_vll]; norm_num
  have he0 : (0 : ℝ) ≤ dot vur vlr := by rw [dot_vur_vlr]; norm_num
  have he1 : dot vur vlr < 1 := by rw [dot_vur_vlr]; norm_num
  have hrow0 := slerpPt_unit vul vll n r dot_vul_vul dot_vll_vll hd0 hd1
  have hrow1 := slerpPt_unit vur vlr n r dot_vur_vur dot_vlr_vlr he0 he1
  have hd := rows_dot n r hn hr
  exact slerpPt_unit _ _ n c hrow0 hrow1 hd.1 hd.2

theorem rotFace_dot (f : ℕ) (v : Vec3) : dot (rotFace f v) (rotFace f v) = dot v v := by
  simp only [rotFace]
  split_ifs <;> simp only [dot] <;> ring

theorem baseVert_unit (n p : ℕ) (hn : 1 ≤ n) : dot (baseVert n p) (baseVert n p) = 1 := by
  have hq : p % ppf n < ppf n := Nat.mod_lt _ (by simp [ppf, dp1])
  have hr : p % ppf n / dp1 n ≤ n := by
    have : p % ppf n / dp1 n < dp1 n := by
      apply (Nat.div_lt_iff_lt_mul (by simp [dp1])).mpr
      simpa [ppf] using hq
    simp only [dp1] at this ⊢; omega
  rw [baseVert, rotFace_dot]
  exact frontV_unit n _ _ hn hr

/-- C8: every vertex of the finished vertex array — base grid, seam duplicates
and pole duplicates alike — has Euclidean magnitude 1 within 1e-5 (exactly 1 in
the real-number model of the float computation). -/
theorem C8_unit_vertices (n p : ℕ) (hn : 1 ≤ n) :
    dot (vertAt n p) (vertAt n p) = 1 ∧
    |Real.sqrt (dot (vertAt n p) (vertAt n p)) - 1| ≤ 1e-5 := by
  have h : dot (vertAt n p) (vertAt n p) = 1 := by
    rw [vertAt]
    split_ifs <;> exact baseVert_unit n _ hn
  refine ⟨h, ?_⟩
  rw [h, Real.sqrt_one]
  norm_num

/-- C8 witness at resolution 1, vertex 0. -/
theorem C8_unit_vertices_witness :
    (1 : ℕ) ≤ 1 ∧ dot (vertAt 1 0) (vertAt 1 0) = 1 ∧
    |Real.sqrt (dot (vertAt 1 0) (vertAt 1 0)) - 1| ≤ 1e-5 :=
  ⟨le_refl 1, (C8_unit_vertices 1 0 (le_refl 1)).1, (C8_unit_vertices 1 0 (le_refl 1)).2⟩

/-! ## Projection mapper (quadsphere.cpp lines 321-452) -/

/-- `ninv = -0.01`: low out-of-range margin. -/
noncomputable def ninv : ℝ := -0.01

/-- `pinv = 1.01`: high out-of-range margin. -/
noncomputable def pinv : ℝ := 1.01

/-- `INVAL(t) = (t > 0 ? pinv : ninv)`. -/
noncomputable def INVAL (t : ℝ) : ℝ := if 0 < t then pinv else ninv

/-- `CLIP(x) = (x < ninv ? ninv : x > pinv ? pinv : x)`. -/
noncomputable def CLIP (x : ℝ) : ℝ := if x < ninv then ninv else if pinv < x then pinv else x

/-- C `atan2(y, x)`. -/
noncomputable def atan2 (y x : ℝ) : ℝ :=
  if 0 < x then Real.arctan (y / x)
  else if x < 0 then
    (if 0 ≤ y then Real.arctan (y / x) + Real.pi else Real.arctan (y / x) - Real.pi)
  else (if 0 < y then Real.pi / 2 else if y < 0 then -(Real.pi / 2) else 0)

/-- `DEG2RAD(x) = x * Pi / 180`. -/
noncomputable def DEG2RAD (x : ℝ) : ℝ := x * Real.pi / 180

/-- `xa = -atan2(ps[0], ps[2])`: horizontal angle from +Z. -/
noncomputable def xa (v : Vec3) : ℝ := -atan2 v.x v.z

/-- `ya = acos(ps[1])`. -/
noncomputable def ya (v : Vec3) : ℝ := Real.arccos v.y

/-- `za = acos(ps[2])`: radial angle from +Z. -/
noncomputable def za (v : Vec3) : ℝ := Real.arccos v.z

/-- `sza = sqrt(ps[0]² + ps[1]²)`. -/
noncomputable def sza (v : Vec3) : ℝ := Real.sqrt (v.x * v.x + v.y * v.y)

/-- `cza = ps[2]`. -/
def cza (v : Vec3) : ℝ := v.z

/-- `sya = ps[1]`. -/
def sya (v : Vec3) : ℝ := v.y

/-- `cya = sqrt(ps[0]² + ps[2]²)`. -/
noncomputable def cya (v : Vec3) : ℝ := Real.sqrt (v.x * v.x + v.z * v.z)

/-- `sx = sxa / sza` with `sxa = -ps[0]`, or 0 when `sza < 1.0e-4`. -/
noncomputable def sx (v : Vec3) : ℝ := if 1e-4 ≤ sza v then -v.x / sza v else 0

/-- `sy = -sya / sza`, or 0 when `sza < 1.0e-4`. -/
noncomputable def sy (v : Vec3) : ℝ := if 1e-4 ≤ sza v then -v.y / sza v else 0

/-- `amaxcyl = DEG2RAD(80)`. -/
noncomputable def amaxcyl : ℝ := DEG2RAD 80

/-- `amaxsph = DEG2RAD(180)`. -/
noncomputable def amaxsph : ℝ := DEG2RAD 180

/-- `amaxfish = DEG2RAD(180)`. -/
noncomputable def amaxfish : ℝ := DEG2RAD 180

/-- `amaxmerc = DEG2RAD(80)`. -/
noncomputable def amaxmerc : ℝ := DEG2RAD 80

/-- `cminmerc = cos(amaxmerc)`. -/
noncomputable def cminmerc : ℝ := Real.cos amaxmerc

/-- `tmaxmerc = log(tan(amaxmerc) + 1/cminmerc)`. -/
noncomputable def tmaxmerc : ℝ := Real.log (Real.tan amaxmerc + 1 / cminmerc)

/-- `amaxster = DEG2RAD(155)`. -/
noncomputable def amaxster : ℝ := DEG2RAD 155

/-- `tmaxster = tan(0.5 * amaxster)`. -/
noncomputable def tmaxster : ℝ := Real.tan (0.5 * amaxster)

/-- Rectilinear (lines 384-393).  The validity test is the hardcoded
`za > 0.45 * Pi`; the catalog half-fov `amaxrect` (from `pictypes.maxFov`,
external to the repository) enters only through the scale
`tmaxrect = tan(amaxrect)`. -/
noncomputable def rectTC (amaxrect : ℝ) (v : Vec3) : ℝ × ℝ :=
  if 0.45 * Real.pi < za v then (INVAL (sx v), INVAL (sy v))
  else (CLIP (0.5 + 0.5 * (sza v / cza v) / Real.tan amaxrect * sx v),
        CLIP (0.5 + 0.5 * (sza v / cza v) / Real.tan amaxrect * sy v))

/-- Fisheye (lines 396-403). -/
noncomputable def fishTC (v : Vec3) : ℝ × ℝ :=
  if amaxfish < za v then (INVAL (xa v), INVAL (ya v - 0.5 * Real.pi))
  else (CLIP (0.5 + 0.5 * Real.sqrt (0.5 * (1 - cza v)) * sx v),
        CLIP (0.5 + 0.5 * Real.sqrt (0.5 * (1 - cza v)) * sy v))

/-- Equirectangular (lines 406-407). -/
noncomputable def equiTC (v : Vec3) : ℝ × ℝ :=
  (CLIP (0.5 + 0.5 * xa v / Real.pi), CLIP (ya v / Real.pi))

/-- Cylindrical (lines 410-417); the vertical scale shares `tmaxrect`. -/
noncomputable def cyliTC (amaxrect : ℝ) (v : Vec3) : ℝ × ℝ :=
  if amaxcyl < |ya v - 0.5 * Real.pi| then (INVAL (xa v), INVAL (ya v - 0.5 * Real.pi))
  else ((equiTC v).1, CLIP (0.5 - 0.5 * (sya v / cya v) / Real.tan amaxrect))

/-- Equiangular sphere (lines 420-427). -/
noncomputable def anglTC (v : Vec3) : ℝ × ℝ :=
  if amaxsph < za v then (INVAL (xa v), INVAL (ya v - 0.5 * Real.pi))
  else (CLIP (0.5 + 0.5 * za v / Real.pi * sx v), CLIP (0.5 + 0.5 * za v / Real.pi * sy v))

/-- The value held by the local variable `s` when control reaches the mercator
block (line 431): the cylindrical block set `s = ya - 0.5*Pi` and the
equiangular valid branch (taken whenever `za ≤ amaxsph`) overwrote it with
`s = 0.5 * za / Pi`. -/
noncomputable def sAtMerc (v : Vec3) : ℝ :=
  if amaxsph < za v then ya v - 0.5 * Real.pi else 0.5 * za v / Real.pi

/-- Mercator (lines 430-435): `pm[0] = pe[0]`; the out-of-range branch is
`INVAL(s)` with the leftover `s` above. -/
noncomputable def mercTC (v : Vec3) : ℝ × ℝ :=
  ((equiTC v).1,
   if |cya v| < cminmerc then INVAL (sAtMerc v)
   else CLIP (Real.log ((sya v + 1) / cya v) / tmaxmerc))

/-- Stereographic (lines 438-445). -/
noncomputable def sterTC (v : Vec3) : ℝ × ℝ :=
  if amaxster < za v then (INVAL (sx v), INVAL (sy v))
  else (CLIP (0.5 + Real.tan (0.5 * za v) / tmaxster * sx v),
        CLIP (0.5 + Real.tan (0.5 * za v) / tmaxster * sy v))

/-! ### Shared bounds -/

theorem CLIP_id (x : ℝ) (h0 : 0 ≤ x) (h1 : x ≤ 1) : CLIP x = x := by
  rw [CLIP, ninv, pinv]
  split_ifs with ha hb
  · exfalso; linarith
  · exfalso; linarith
  · rfl

theorem sx_abs_le (v : Vec3) : |sx v| ≤ 1 := by
  rw [sx]
  split_ifs with h
  · have hpos : 0 < sza v := lt_of_lt_of_le (by norm_num) h
    rw [abs_div, abs_of_pos hpos, div_le_one hpos, abs_neg]
    have h1 : |v.x| = Real.sqrt (v.x ^ 2) := (Real.sqrt_sq_eq_abs _).symm
    rw [h1, sza]
    apply Real.sqrt_le_sqrt
    nlinarith [sq_nonneg v.y]
  · norm_num

theorem sy_abs_le (v : Vec3) : |sy v| ≤ 1 := by
  rw [sy]
  split_ifs with h
  · have hpos : 0 < sza v := lt_of_lt_of_le (by norm_num) h
    rw [abs_div, abs_of_pos hpos, div_le_one hpos, abs_neg]
    have h1 : |v.y| = Real.sqrt (v.y ^ 2) := (Real.sqrt_sq_eq_abs _).symm
    rw [h1, sza]
    apply Real.sqrt_le_sqrt
    nlinarith [sq_nonneg v.x]
  · norm_num

theorem half_add_scaled_mem (s d : ℝ) (hs0 : 0 ≤ s) (hs1 : s ≤ 1 / 2) (hd : |d| ≤ 1) :
    0 ≤ 0.5 + s * d ∧ 0.5 + s * d ≤ 1 := by
  have h1 : |s * d| ≤ 1 / 2 := by
    rw [abs_mul, abs_of_nonneg hs0]
    calc s * |d| ≤ s * 1 := by nlinarith [abs_nonneg d]
    _ = s := by ring
    _ ≤ 1 / 2 := hs1
  have h2 := abs_le.mp h1
  constructor <;> [nlinarith [h2.1]; nlinarith [h2.2]]

theorem z_bounds (v : Vec3) (hunit : dot v v = 1) : -1 ≤ v.z ∧ v.z ≤ 1 := by
  simp only [dot] at hunit
  constructor <;> nlinarith [sq_nonneg v.x, sq_nonneg v.y, sq_nonneg (v.z + 1), sq_nonneg (v.z - 1)]

/-- C10: for every unit vertex direction, `za = acos(z)` lies within both the
fisheye and the equiangular fov limits (both exactly π), so the out-of-fov
branches of those two mappings are unreachable: the coordinates always come
from the valid-branch formula and lie in [0, 1]. -/
theorem C10_fisheye_equiangular_total (v : Vec3) (hunit : dot v v = 1) :
    za v ≤ amaxfish ∧ za v ≤ amaxsph ∧
    fishTC v = (CLIP (0.5 + 0.5 * Real.sqrt (0.5 * (1 - cza v)) * sx v),
                CLIP (0.5 + 0.5 * Real.sqrt (0.5 * (1 - cza v)) * sy v)) ∧
    (0 ≤ (fishTC v).1 ∧ (fishTC v).1 ≤ 1) ∧ (0 ≤ (fishTC v).2 ∧ (fishTC v).2 ≤ 1) ∧
    anglTC v = (CLIP (0.5 + 0.5 * za v / Real.pi * sx v),
                CLIP (0.5 + 0.5 * za v / Real.pi * sy v)) ∧
    (0 ≤ (anglTC v).1 ∧ (anglTC v).1 ≤ 1) ∧ (0 ≤ (anglTC v).2 ∧ (anglTC v).2 ≤ 1) := by
  have hpi : amaxfish = Real.pi := by rw [amaxfish, DEG2RAD]; ring
  have hpi2 : amaxsph = Real.pi := by rw [amaxsph, DEG2RAD]; ring
  have hle : za v ≤ Real.pi := Real.arccos_le_pi _
  have hz := z_bounds v hunit
  have hfish_eq : fishTC v = (CLIP (0.5 + 0.5 * Real.sqrt (0.5 * (1 - cza v)) * sx v),
      CLIP (0.5 + 0.5 * Real.sqrt (0.5 * (1 - cza v)) * sy v)) := by
    rw [fishTC, if_neg (by rw [hpi]; exact not_lt.mpr hle)]
  have hangl_eq : anglTC v = (CLIP (0.5 + 0.5 * za v / Real.pi * sx v),
      CLIP (0.5 + 0.5 * za v / Real.pi * sy v)) := by
    rw [anglTC, if_neg (by rw [hpi2]; exact not_lt.mpr hle)]
  -- fisheye scale 0.5*sqrt(0.5*(1-z)) ∈ [0, 1/2]
  have hsf0 : 0 ≤ 0.5 * Real.sqrt (0.5 * (1 - cza v)) := by positivity
  have hsf1 : 0.5 * Real.sqrt (0.5 * (1 - cza v)) ≤ 1 / 2 := by
    have harg : 0.5 * (1 - cza v) ≤ 1 := by rw [cza]; linarith [hz.1]
    have : Real.sqrt (0.5 * (1 - cza v)) ≤ 1 := by
      calc Real.sqrt (0.5 * (1 - cza v)) ≤ Real.sqrt 1 := Real.sqrt_le_sqrt harg
      _ = 1 := Real.sqrt_one
    linarith
  -- equiangular scale 0.5*za/π ∈ [0, 1/2]
  have hsa0 : 0 ≤ 0.5 * za v / Real.pi := by
    have := Real.arccos_nonneg v.z
    have := Real.pi_pos
    positivity
  have hsa1 : 0.5 * za v / Real.pi ≤ 1 / 2 := by
    have hpip := Real.pi_pos
    rw [div_le_iff hpip]
    nlinarith [hle]
  have hf1 := half_add_scaled_mem _ _ hsf0 hsf1 (sx_abs_le v)
  have hf2 := half_add_scaled_mem _ _ hsf0 hsf1 (sy_abs_le v)
  have ha1 := half_add_scaled_mem _ _ hsa0 hsa1 (sx_abs_le v)
  have ha2 := half_add_scaled_mem _ _ hsa0 hsa1 (sy_abs_le v)
  refine ⟨by rw [hpi]; exact hle, by rw [hpi2]; exact hle, hfish_eq, ?_, ?_, hangl_eq, ?_, ?_⟩
  · rw [hfish_eq]
    simp only [CLIP_id _ hf1.1 hf1.2]
    exact hf1
  · rw [hfish_eq]
    simp only [CLIP_id _ hf2.1 hf2.2]
    exact hf2
  · rw [hangl_eq]
    simp only [CLIP_id _ ha1.1 ha1.2]
    exact ha1
  · rw [hangl_eq]
    simp only [CLIP_id _ ha2.1 ha2.2]
    exact ha2

/-- C10 witness at the forward vertex (0,0,1). -/
theorem C10_witness :
    dot ⟨0, 0, 1⟩ ⟨0, 0, 1⟩ = 1 ∧
    (0 ≤ (fishTC ⟨0, 0, 1⟩).1 ∧ (fishTC ⟨0, 0, 1⟩).1 ≤ 1) ∧
    (0 ≤ (anglTC ⟨0, 0, 1⟩).1 ∧ (anglTC ⟨0, 0, 1⟩).1 ≤ 1) := by
  have hu : dot (⟨0, 0, 1⟩ : Vec3) ⟨0, 0, 1⟩ = 1 := by simp [dot]
  have h := C10_fisheye_equiangular_total ⟨0, 0, 1⟩ hu
  exact ⟨hu, h.2.2.2.1, h.2.2.2.2.2.2.1⟩

/-! ### Claim C4: rectilinear valid region -/

/-- The test vertex (sin 60°, 0, cos 60°): off-axis angle za = π/3. -/
noncomputable def v4 : Vec3 := ⟨Real.sqrt 3 / 2, 0, 1 / 2⟩

theorem za_v4 : za v4 = Real.pi / 3 := by
  rw [za, v4]
  show Real.arccos (1 / 2) = Real.pi / 3
  rw [← Real.cos_pi_div_three]
  exact Real.arccos_cos (by positivity) (by linarith [Real.pi_pos])

/-- C4 (counterexample): with the catalog half-fov configured at 45° (π/4), the
vertex at za = π/3 lies beyond that half-fov, yet the rectilinear mapping does
NOT emit the out-of-range marker pair: its second component is 0.5 (the valid
branch runs, because the hardcoded test is `za > 0.45π`, not the configured
half-fov). -/
theorem C4_cex :
    Real.pi / 4 < za v4 ∧ (rectTC (Real.pi / 4) v4).2 = 0.5 ∧
    (0.5 : ℝ) ≠ ninv ∧ (0.5 : ℝ) ≠ pinv := by
  have hpip := Real.pi_pos
  have hza := za_v4
  refine ⟨by rw [hza]; linarith, ?_, by rw [ninv]; norm_num, by rw [pinv]; norm_num⟩
  have hnot : ¬ (0.45 * Real.pi < za v4) := by rw [hza]; push_neg; linarith
  rw [rectTC, if_neg hnot]
  have hsy : sy v4 = 0 := by
    rw [sy]
    split_ifs with h
    · show -(0 : ℝ) / sza v4 = 0
      norm_num
    · rfl
  show CLIP (0.5 + 0.5 * (sza v4 / cza v4) / Real.tan (Real.pi / 4) * sy v4) = 0.5
  rw [hsy, mul_zero, add_zero]
  exact CLIP_id _ (by norm_num) (by norm_num)

/-- C4 (amended): the rectilinear valid region is exactly `za ≤ 0.45π` — a
hardcoded threshold, independent of the catalog half-fov: every vertex beyond
0.45π receives the out-of-range marker pair `(INVAL sx, INVAL sy)`, and every
vertex within it receives `CLIP(0.5 + 0.5·(tan za / tan maxHalfFov)·(sx, sy))`
(the catalog half-fov enters only through the tangent scale). -/
theorem C4_amended (amax : ℝ) (v : Vec3) (hunit : dot v v = 1) :
    (0.45 * Real.pi < za v → rectTC amax v = (INVAL (sx v), INVAL (sy v))) ∧
    (za v ≤ 0.45 * Real.pi →
      rectTC amax v =
        (CLIP (0.5 + 0.5 * (Real.tan (za v) / Real.tan amax) * sx v),
         CLIP (0.5 + 0.5 * (Real.tan (za v) / Real.tan amax) * sy v))) := by
  constructor
  · intro h
    rw [rectTC, if_pos h]
  · intro h
    have hz := z_bounds v hunit
    simp only [dot] at hunit
    have hsza : sza v = Real.sin (za v) := by
      rw [sza, za, Real.sin_arccos]
      congr 1
      linear_combination hunit
    have hcza : cza v = Real.cos (za v) := by
      rw [cza, za, Real.cos_arccos hz.1 hz.2]
    have hrw : sza v / cza v = Real.tan (za v) := by
      rw [Real.tan_eq_sin_div_cos, ← hsza, ← hcza]
    have harg : ∀ s : ℝ, 0.5 * (sza v / cza v) / Real.tan amax * s
        = 0.5 * (Real.tan (za v) / Real.tan amax) * s := by
      intro s
      rw [hrw]
      ring
    rw [rectTC, if_neg (not_lt.mpr h), harg, harg]

/-- C4 amended, witness at the forward vertex (0,0,1) with half-fov π/4. -/
theorem C4_amended_witness :
    dot ⟨0, 0, 1⟩ ⟨0, 0, 1⟩ = 1 ∧ za ⟨0, 0, 1⟩ ≤ 0.45 * Real.pi ∧
    rectTC (Real.pi / 4) ⟨0, 0, 1⟩ =
      (CLIP (0.5 + 0.5 * (Real.tan (za ⟨0, 0, 1⟩) / Real.tan (Real.pi / 4)) * sx ⟨0, 0, 1⟩),
       CLIP (0.5 + 0.5 * (Real.tan (za ⟨0, 0, 1⟩) / Real.tan (Real.pi / 4)) * sy ⟨0, 0, 1⟩)) := by
  have hu : dot (⟨0, 0, 1⟩ : Vec3) ⟨0, 0, 1⟩ = 1 := by simp [dot]
  have hle : za (⟨0, 0, 1⟩ : Vec3) ≤ 0.45 * Real.pi := by
    rw [za]
    show Real.arccos 1 ≤ 0.45 * Real.pi
    rw [Real.arccos_one]
    positivity
  exact ⟨hu, hle, (C4_amended (Real.pi / 4) ⟨0, 0, 1⟩ hu).2 hle⟩

/-! ### Claim C5: out-of-range margin, mercator marker sign -/

theorem cminmerc_pos : 0 < cminmerc := by
  rw [cminmerc, amaxmerc, DEG2RAD]
  apply Real.cos_pos_of_mem_Ioo
  constructor <;> [linarith [Real.pi_pos]; linarith [Real.pi_pos]]

theorem za_v5 : za (⟨0, -1, 0⟩ : Vec3) = Real.pi / 2 := by
  rw [za]
  exact Real.arccos_zero

theorem sAtMerc_v5 : sAtMerc ⟨0, -1, 0⟩ = 1 / 4 := by
  rw [sAtMerc, za_v5, if_neg ?_]
  · field_simp
    ring
  · rw [amaxsph, DEG2RAD]
    push_neg
    nlinarith [Real.pi_pos]

theorem mercT_v5 : (mercTC ⟨0, -1, 0⟩).2 = pinv := by
  have hcya : cya (⟨0, -1, 0⟩ : Vec3) = 0 := by
    rw [cya]
    norm_num
  rw [mercTC]
  show (if |cya (⟨0, -1, 0⟩ : Vec3)| < cminmerc then INVAL (sAtMerc ⟨0, -1, 0⟩)
    else CLIP (Real.log ((sya ⟨0, -1, 0⟩ + 1) / cya ⟨0, -1, 0⟩) / tmaxmerc)) = pinv
  rw [hcya, abs_zero, if_pos cminmerc_pos, sAtMerc_v5, INVAL, if_pos (by norm_num)]

/-- A south-side in-range companion point (latitude -45°). -/
noncomputable def v5b : Vec3 := ⟨0, -(Real.sqrt 2 / 2), Real.sqrt 2 / 2⟩

theorem sqrt2_sq : Real.sqrt 2 * Real.sqrt 2 = 2 := Real.mul_self_sqrt (by norm_num)

theorem cya_v5b : cya v5b = Real.sqrt 2 / 2 := by
  rw [cya, v5b]
  show Real.sqrt (0 * 0 + Real.sqrt 2 / 2 * (Real.sqrt 2 / 2)) = Real.sqrt 2 / 2
  rw [show (0 : ℝ) * 0 + Real.sqrt 2 / 2 * (Real.sqrt 2 / 2) = (Real.sqrt 2 / 2) ^ 2 by ring]
  exact Real.sqrt_sq (by positivity)

theorem tmaxmerc_pos : 0 < tmaxmerc := by
  rw [tmaxmerc]
  apply Real.log_pos
  have htan : 1 < Real.tan amaxmerc := by
    rw [amaxmerc, DEG2RAD, ← Real.tan_pi_div_four]
    apply Real.tan_lt_tan_of_nonneg_of_lt_pi_div_two (by positivity)
    · linarith [Real.pi_pos]
    · linarith [Real.pi_pos]
  have hinv : 0 < 1 / cminmerc := one_div_pos.mpr cminmerc_pos
  linarith

theorem CLIP_lt_half (x : ℝ) (hx : x < 0) : CLIP x < 0.5 := by
  rw [CLIP, ninv, pinv]
  split_ifs with h1 h2
  · norm_num
  · exfalso; linarith
  · linarith

theorem mercT_v5b : (mercTC v5b).2 < 0.5 := by
  have hge : ¬ (|cya v5b| < cminmerc) := by
    push_neg
    rw [cya_v5b, abs_of_pos (by positivity)]
    rw [cminmerc, amaxmerc, DEG2RAD, ← Real.cos_pi_div_four]
    apply Real.cos_le_cos_of_nonneg_of_le_pi (by positivity)
    · linarith [Real.pi_pos]
    · linarith [Real.pi_pos]
  rw [mercTC]
  show (if |cya v5b| < cminmerc then INVAL (sAtMerc v5b)
    else CLIP (Real.log ((sya v5b + 1) / cya v5b) / tmaxmerc)) < 0.5
  rw [if_neg hge]
  apply CLIP_lt_half
  apply div_neg_of_neg_of_pos _ tmaxmerc_pos
  have hval : (sya v5b + 1) / cya v5b = Real.sqrt 2 - 1 := by
    rw [cya_v5b]
    show (-(Real.sqrt 2 / 2) + 1) / (Real.sqrt 2 / 2) = Real.sqrt 2 - 1
    rw [div_eq_iff (by positivity : (Real.sqrt 2) / 2 ≠ 0)]
    linear_combination (-(1 : ℝ) / 2) * sqrt2_sq
  rw [hval]
  apply Real.log_neg
  · nlinarith [sqrt2_sq, Real.sqrt_nonneg 2]
  · nlinarith [sqrt2_sq, Real.sqrt_nonneg 2]

/-! The failing point (0, -1, 0) is a real mesh vertex: the bottom-face centre
(resolution 2, index 40).  The two slerp stages are evaluated through symmetry
and the unit-norm property rather than half-angle formulas. -/

theorem slerpW_vur_vlr_eq (u : ℝ) : slerpW vur vlr u = slerpW vul vll u := by
  simp only [slerpW, slerpOm, slerpSom, dot_vur_vlr, dot_vul_vll]

theorem slerpPt_two_one (v0 v1 : Vec3) :
    slerpPt v0 v1 2 1 =
      ⟨v0.x * slerpW v0 v1 (1 / 2) + v1.x * slerpW v0 v1 (1 / 2),
       v0.y * slerpW v0 v1 (1 / 2) + v1.y * slerpW v0 v1 (1 / 2),
       v0.z * slerpW v0 v1 (1 / 2) + v1.z * slerpW v0 v1 (1 / 2)⟩ := by
  rw [slerpPt]
  norm_num

theorem midrow_left : slerpPt vul vll 2 1 = ⟨Real.sqrt 2 / 2, 0, Real.sqrt 2 / 2⟩ := by
  have hd0 : (0 : ℝ) ≤ dot vul vll := by rw [dot_vul_vll]; norm_num
  have hd1 : dot vul vll < 1 := by rw [dot_vul_vll]; norm_num
  have hw := slerpW_nonneg vul vll (1 / 2) (by norm_num) (by norm_num) hd0 hd1
  have hunit := slerpPt_unit vul vll 2 1 dot_vul_vul dot_vll_vll hd0 hd1
  rw [slerpPt_two_one] at hunit ⊢
  simp only [vul, vll] at hunit ⊢
  simp only [dot] at hunit
  have hccc0 : 0 ≤ ccc := Real.sqrt_nonneg _
  set w := slerpW (⟨ccc, ccc, ccc⟩ : Vec3) ⟨ccc, -ccc, ccc⟩ (1 / 2) with hwdef
  have hx : ccc * w + ccc * w = Real.sqrt 2 / 2 := by
    have hxx : (ccc * w + ccc * w) ^ 2 = 1 / 2 := by nlinarith [hunit]
    have hx0 : 0 ≤ ccc * w + ccc * w := by positivity
    rw [← Real.sqrt_sq hx0, hxx]
    rw [show (1 : ℝ) / 2 = (Real.sqrt 2 / 2) ^ 2 by nlinarith [sqrt2_sq]]
    exact Real.sqrt_sq (by positivity)
  have hy : ccc * w + -ccc * w = 0 := by ring
  rw [hx, hy]

theorem midrow_right : slerpPt vur vlr 2 1 = ⟨-(Real.sqrt 2 / 2), 0, Real.sqrt 2 / 2⟩ := by
  have hleft := midrow_left
  rw [slerpPt_two_one] at hleft ⊢
  rw [slerpW_vur_vlr_eq]
  simp only [Vec3.mk.injEq] at hleft
  obtain ⟨hx, hy, hz⟩ := hleft
  simp only [vul, vll, vur, vlr] at hx hy hz ⊢
  simp only [Vec3.mk.injEq]
  refine ⟨by linarith, by ring, by linarith⟩

theorem frontV_two_center : frontV 2 1 1 = ⟨0, 0, 1⟩ := by
  rw [frontV, midrow_left, midrow_right]
  have hd : dot (⟨Real.sqrt 2 / 2, 0, Real.sqrt 2 / 2⟩ : Vec3)
      ⟨-(Real.sqrt 2 / 2), 0, Real.sqrt 2 / 2⟩ = 0 := by
    simp only [dot]
    ring
  have h0 : dot (⟨Real.sqrt 2 / 2, 0, Real.sqrt 2 / 2⟩ : Vec3)
      ⟨Real.sqrt 2 / 2, 0, Real.sqrt 2 / 2⟩ = 1 := by
    simp only [dot]
    nlinarith [sqrt2_sq]
  have h1 : dot (⟨-(Real.sqrt 2 / 2), 0, Real.sqrt 2 / 2⟩ : Vec3)
      ⟨-(Real.sqrt 2 / 2), 0, Real.sqrt 2 / 2⟩ = 1 := by
    simp only [dot]
    nlinarith [sqrt2_sq]
  have hw := slerpW_nonneg (⟨Real.sqrt 2 / 2, 0, Real.sqrt 2 / 2⟩ : Vec3)
    ⟨-(Real.sqrt 2 / 2), 0, Real.sqrt 2 / 2⟩ (1 / 2) (by norm_num) (by norm_num)
    (by rw [hd]) (by rw [hd]; norm_num)
  have hunit := slerpPt_unit (⟨Real.sqrt 2 / 2, 0, Real.sqrt 2 / 2⟩ : Vec3)
    ⟨-(Real.sqrt 2 / 2), 0, Real.sqrt 2 / 2⟩ 2 1 h0 h1 (by rw [hd]) (by rw [hd]; norm_num)
  rw [slerpPt_two_one] at hunit ⊢
  simp only [dot] at hunit
  simp only [] at hunit ⊢
  set w := slerpW (⟨Real.sqrt 2 / 2, 0, Real.sqrt 2 / 2⟩ : Vec3)
    ⟨-(Real.sqrt 2 / 2), 0, Real.sqrt 2 / 2⟩ (1 / 2) with hwdef
  have hx : Real.sqrt 2 / 2 * w + -(Real.sqrt 2 / 2) * w = 0 := by ring
  have hsq2 : 0 ≤ Real.sqrt 2 := Real.sqrt_nonneg 2
  have hz : Real.sqrt 2 / 2 * w + Real.sqrt 2 / 2 * w = 1 := by
    have hzz : (Real.sqrt 2 / 2 * w + Real.sqrt 2 / 2 * w) ^ 2 = 1 := by nlinarith [hunit]
    have hz0 : 0 ≤ Real.sqrt 2 / 2 * w + Real.sqrt 2 / 2 * w := by positivity
    nlinarith [hzz, hz0]
  rw [hx, hz]
  norm_num

theorem vertAt_bottom_center : vertAt 2 40 = ⟨0, -1, 0⟩ := by
  have hppf : ppf 2 = 9 := by norm_num [ppf, dp1]
  rw [vertAt, if_pos (by rw [hppf]; norm_num)]
  rw [baseVert, hppf]
  have h1 : (40 : ℕ) / 9 = 4 := by norm_num
  have h2 : (40 : ℕ) % 9 = 4 := by norm_num
  have h3 : (4 : ℕ) / dp1 2 = 1 := by norm_num [dp1]
  have h4 : (4 : ℕ) % dp1 2 = 1 := by norm_num [dp1]
  rw [h1, h2, h3, h4, frontV_two_center]
  rw [rotFace]
  norm_num

/-- C5 (code bug, mercator): the bottom-face centre vertex (0,-1,0) — a real
mesh vertex at resolution 2, index 40 — lies beyond the mercator max fov
(|cya| = 0 < cos 80°), and south in-range latitudes map to the LOW half of the
t-axis (e.g. latitude -45° maps below 0.5), yet the out-of-range marker the
code assigns is the HIGH margin `pinv = 1.01`: `INVAL(s)` reads the stale local
`s = 0.5·za/π = 1/4 > 0` left by the equiangular block instead of a
signed vertical quantity, so the marker is not signed toward the side on which
the point lies. -/
theorem C5_merc_marker_bug :
    vertAt 2 40 = ⟨0, -1, 0⟩ ∧
    |cya ⟨0, -1, 0⟩| < cminmerc ∧
    sya ⟨0, -1, 0⟩ < 0 ∧
    (mercTC v5b).2 < 0.5 ∧
    (mercTC ⟨0, -1, 0⟩).2 = pinv ∧
    pinv ≠ ninv := by
  refine ⟨vertAt_bottom_center, ?_, ?_, mercT_v5b, mercT_v5, ?_⟩
  · have hcya : cya (⟨0, -1, 0⟩ : Vec3) = 0 := by
      rw [cya]
      norm_num
    rw [hcya, abs_zero]
    exact cminmerc_pos
  · rw [sya]
    norm_num
  · rw [pinv, ninv]
    norm_num

end Quadsphere
